import Mathlib

/-!
Verification of the Avalanche Proof subsystem (avalanche/proof.cpp) against its
natural-language specification.  The C++ code is shallowly embedded: machine
integers become Nat/Int with explicit wrap where it matters, byte streams
become List Nat, and the hash / Schnorr primitives (consumed through narrow
interfaces) are modelled symbolically.
-/

/-- Serialization ceiling MAX_SIZE = 0x02000000 used by compact-size reads.
Modelled from the spec: codec errors include an oversized compact_size. -/
def MAX_SIZE : Nat := 0x02000000

/-- Little-endian serialization of a value into `w` bytes (value taken mod 256^w). -/
def serLE : Nat → Nat → List Nat
  | 0, _ => []
  | w + 1, v => (v % 256) :: serLE w (v / 256)

/-- Value of a little-endian byte list. -/
def leVal (l : List Nat) : Nat := l.foldr (fun b acc => b + 256 * acc) 0

/-- Two's-complement encoding of an i64 as 8 little-endian bytes. -/
def serI64 (v : Int) : List Nat := serLE 8 (v % (2 ^ 64 : Int)).toNat

/-- Decode a Nat below 2^64 as a two's-complement i64. -/
def decI64 (n : Nat) : Int := if n < 2 ^ 63 then (n : Int) else (n : Int) - 2 ^ 64

/-- Bitcoin variable-length count encoding (1, 3, 5 or 9 bytes by magnitude).
Modelled from the spec: compact_size of the codec section. -/
def writeCompactSize (n : Nat) : List Nat :=
  if n < 253 then [n]
  else if n ≤ 0xFFFF then 253 :: serLE 2 n
  else if n ≤ 0xFFFFFFFF then 254 :: serLE 4 n
  else 255 :: serLE 8 n

/-- Read `k` bytes from the stream, failing on truncated input. -/
def readBytes (k : Nat) (s : List Nat) : Option (List Nat × List Nat) :=
  if k ≤ s.length then some (s.take k, s.drop k) else none

/-- Read a compact size, rejecting non-canonical encodings and sizes above
MAX_SIZE.  Modelled from the spec: compact_size decoding with the oversized
check of the codec error list. -/
def readCompactSize (s : List Nat) : Option (Nat × List Nat) :=
  match s with
  | [] => none
  | b :: rest =>
    if b < 253 then some (b, rest)
    else if b = 253 then
      match readBytes 2 rest with
      | none => none
      | some (bs, r) =>
        let v := leVal bs
        if v < 253 ∨ MAX_SIZE < v then none else some (v, r)
    else if b = 254 then
      match readBytes 4 rest with
      | none => none
      | some (bs, r) =>
        let v := leVal bs
        if v < 0x10000 ∨ MAX_SIZE < v then none else some (v, r)
    else
      match readBytes 8 rest with
      | none => none
      | some (bs, r) =>
        let v := leVal bs
        if v < 0x100000000 ∨ MAX_SIZE < v then none else some (v, r)

/-- All entries are bytes. -/
def bytesOk (l : List Nat) : Bool := l.all (fun b => decide (b < 256))

/-- The sixteen lowercase hex digits. -/
def hexAlphabet : List Char := "0123456789abcdef".toList

/-- Lowercase hex digit of a nibble. -/
def natToHexChar (n : Nat) : Char := hexAlphabet.getD n '0'

/-- Numeric value of a hex digit, accepting both cases, as in the HexDigit table. -/
def hexCharVal (c : Char) : Option Nat :=
  if '0' ≤ c ∧ c ≤ '9' then some (c.toNat - '0'.toNat)
  else if 'a' ≤ c ∧ c ≤ 'f' then some (c.toNat - 'a'.toNat + 10)
  else if 'A' ≤ c ∧ c ≤ 'F' then some (c.toNat - 'A'.toNat + 10)
  else none

/-- A byte as two lowercase hex characters. -/
def byteToHexChars (b : Nat) : List Char := [natToHexChar (b / 16), natToHexChar (b % 16)]

/-- Lowercase hex rendering of a byte stream, as produced by HexStr. -/
def bytesToHex (l : List Nat) : List Char := (l.map byteToHexChars).flatten

/-- IsHex: nonempty, even length, all hex digits (either case). -/
def isHexString (s : List Char) : Bool :=
  decide (0 < s.length) && decide (s.length % 2 = 0) && s.all (fun c => (hexCharVal c).isSome)

/-- Decode hex characters two at a time, as ParseHex does on a valid hex string. -/
def hexPairsToBytes : List Char → List Nat
  | c1 :: c2 :: rest =>
    ((hexCharVal c1).getD 0 * 16 + (hexCharVal c2).getD 0) :: hexPairsToBytes rest
  | _ => []

theorem serLE_length (w v : Nat) : (serLE w v).length = w := by
  induction w generalizing v with
  | zero => rfl
  | succ w ih => simp [serLE, ih]

theorem leVal_serLE (w v : Nat) : leVal (serLE w v) = v % 256 ^ w := by
  induction w generalizing v with
  | zero => simp [serLE, leVal, Nat.mod_one]
  | succ w ih =>
    simp only [serLE, leVal, List.foldr] at *
    rw [ih (v / 256), pow_succ', Nat.mod_mul]

theorem leVal_serLE_of_lt {w v : Nat} (h : v < 256 ^ w) : leVal (serLE w v) = v := by
  rw [leVal_serLE, Nat.mod_eq_of_lt h]

theorem serLE_bytesOk (w v : Nat) : bytesOk (serLE w v) = true := by
  induction w generalizing v with
  | zero => rfl
  | succ w ih =>
    simp only [serLE, bytesOk, List.all_cons, Bool.and_eq_true, decide_eq_true_eq]
    exact ⟨Nat.mod_lt _ (by norm_num), ih (v / 256)⟩

theorem readBytes_exact {l : List Nat} {k : Nat} (h : l.length = k) (r : List Nat) :
    readBytes k (l ++ r) = some (l, r) := by
  subst h
  simp [readBytes, List.take_left, List.drop_left]

theorem readCompactSize_write {n : Nat} (h : n ≤ MAX_SIZE) (r : List Nat) :
    readCompactSize (writeCompactSize n ++ r) = some (n, r) := by
  by_cases h1 : n < 253
  · simp [writeCompactSize, readCompactSize, h1]
  · by_cases h2 : n ≤ 0xFFFF
    · have : leVal (serLE 2 n) = n := leVal_serLE_of_lt (by omega)
      simp only [writeCompactSize, if_neg h1, if_pos h2, readCompactSize, List.cons_append]
      rw [readBytes_exact (serLE_length 2 n) r]
      simp [this, MAX_SIZE]
      omega
    · by_cases h3 : n ≤ 0xFFFFFFFF
      · have hm : n ≤ 33554432 := h
        have : leVal (serLE 4 n) = n := leVal_serLE_of_lt (by omega)
        simp only [writeCompactSize, if_neg h1, if_neg h2, if_pos h3, readCompactSize,
          List.cons_append]
        rw [readBytes_exact (serLE_length 4 n) r]
        simp [this, MAX_SIZE]
        omega
      · exact absurd h (by simp [MAX_SIZE]; omega)

theorem decI64_serI64 {v : Int} (h1 : -(2 ^ 63) ≤ v) (h2 : v < 2 ^ 63) :
    decI64 (leVal (serI64 v)) = v := by
  have hnn : (0 : Int) ≤ v % (2 ^ 64 : Int) := Int.emod_nonneg v (by norm_num)
  have hlt : v % (2 ^ 64 : Int) < (2 ^ 64 : Int) := Int.emod_lt_of_pos v (by norm_num)
  have hval : leVal (serI64 v) = (v % (2 ^ 64 : Int)).toNat := by
    apply leVal_serLE_of_lt
    have h8 : (256 : Nat) ^ 8 = 2 ^ 64 := by norm_num
    rw [h8]
    omega
  rw [hval]
  unfold decI64
  split <;> omega

/-! ## Data model -/

/-- A UTXO reference: (tx_id, output index). -/
structure OutPoint where
  txid : List Nat
  n : Nat
deriving DecidableEq, Repr

/-- A stake, in logical form: the wire packs the coinbase flag into the LSB of
the height field (see serialization below). -/
structure Stake where
  utxo : OutPoint
  amount : Int
  height : Nat
  iscoinbase : Bool
  pubkey : List Nat
deriving DecidableEq, Repr

/-- A stake paired with a 64-byte Schnorr signature. -/
structure SignedStake where
  stake : Stake
  sig : List Nat
deriving DecidableEq, Repr

/-- A proof.  The payout script and proof signature fields are always present
in the object; legacy mode ignores them. -/
structure Proof where
  sequence : Nat
  expirationTime : Int
  master : List Nat
  payoutScriptPubKey : List Nat
  stakes : List SignedStake
  signature : List Nat
deriving DecidableEq, Repr

/-- CPubKey serialization: compact_size(len) followed by the raw key bytes.
Modelled from the spec: PubKey codec line of the codec section. -/
def serPubKey (pk : List Nat) : List Nat := writeCompactSize pk.length ++ pk

/-- Script serialization: compact_size(len) followed by the raw bytes.
Modelled from the spec: byte strings in the codec section. -/
def serScriptBytes (s : List Nat) : List Nat := writeCompactSize s.length ++ s

/-- Canonical stake encoding:
tx_id(32) followed by index(u32 LE), amount(i64 LE), packed_height(u32 LE) and the
pubkey, where packed_height has the coinbase bit in the LSB after a one-bit left
shift of the height.  Modelled from the spec: Stake wire layout (the Stake
SERIALIZE_METHODS live in avalanche/proof.h, not under src/). -/
def Stake.serialize (s : Stake) : List Nat :=
  s.utxo.txid ++ serLE 4 s.utxo.n ++ serI64 s.amount
    ++ serLE 4 (2 * s.height + (if s.iscoinbase then 1 else 0)) ++ serPubKey s.pubkey

/-- The 256-bit hash H, consumed through a narrow interface.  Modelled from the
spec: H is only used as an opaque collision-resistant digest, so it is
idealized as the injective function carrying the hashed byte stream itself. -/
def hashBytes (l : List Nat) : List Nat := l

/-- Stake::computeStakeId (proof.cpp lines 37-41): the stake id is the hash of
the stake's canonical encoding, computed at construction. -/
def Stake.stakeid (s : Stake) : List Nat := hashBytes s.serialize

/-- Stake::getHash (proof.cpp lines 43-48): the per-stake signed message is
H(commitment followed by the stake's canonical encoding). -/
def Stake.getHash (s : Stake) (commitment : List Nat) : List Nat :=
  hashBytes (commitment ++ s.serialize)

/-- The canonical valid signature of the symbolic Schnorr scheme.  Modelled
from the spec: the crypto collaborator is consumed only through
verify(pubkey, message, sig_64) → bool, so a valid signature is idealized as a
canonical 64-byte function of the key and message. -/
def schnorrSigOf (pk : List Nat) (msg : List Nat) : List Nat :=
  (msg ++ pk ++ List.replicate 64 0).take 64

/-- Symbolic Schnorr verification: exactly the canonical signature verifies. -/
def verifySchnorr (pk : List Nat) (msg : List Nat) (sig : List Nat) : Bool :=
  sig == schnorrSigOf pk msg

/-- SignedStake::verify (proof.cpp lines 50-52). -/
def SignedStake.verify (ss : SignedStake) (commitment : List Nat) : Bool :=
  verifySchnorr ss.stake.pubkey (ss.stake.getHash commitment) ss.sig

/-- uint256 operator<, a memcmp over the stored bytes.  Modelled from the spec:
lexicographic byte compare of stake identifiers (uint256 lives in uint256.h,
not under src/). -/
def ltBytes : List Nat → List Nat → Bool
  | _, [] => false
  | [], _ :: _ => true
  | a :: as, b :: bs => if a < b then true else if b < a then false else ltBytes as bs

/-- uint256::ZERO, the initial previous stake id of the ordering check. -/
def zeroStakeId : List Nat := List.replicate 32 0

/-- Ceiling on the stake count.  Modelled from the spec: implementation
ceiling on the order of a few thousand (avalanche/proof.h, not under src/);
no claim depends on the exact value. -/
def AVALANCHE_MAX_PROOF_STAKES : Nat := 1000

/-! ## Identity derivation -/

/-- Proof::computeProofId (proof.cpp lines 88-103), limited id part, with the
process-wide legacy toggle made an explicit parameter: the hash writer
receives sequence, expiration time, the payout script when not legacy, the
compact size of the stake count, and each stake in turn. -/
def Proof.limitedProofId (legacy : Bool) (p : Proof) : List Nat :=
  let ss : List Nat := []
  let ss := ss ++ serLE 8 p.sequence
  let ss := ss ++ serI64 p.expirationTime
  let ss := if legacy then ss else ss ++ serScriptBytes p.payoutScriptPubKey
  let ss := ss ++ writeCompactSize p.stakes.length
  let ss := p.stakes.foldl (fun acc s => acc ++ s.stake.serialize) ss
  hashBytes ss

/-- LimitedProofId::computeProofId (avalanche/proofid.h, not under src/).
Modelled from the spec: ProofId = H(limited_proof_id followed by master_pubkey). -/
def Proof.proofid (legacy : Bool) (p : Proof) : List Nat :=
  hashBytes (p.limitedProofId legacy ++ serPubKey p.master)

/-- StakeCommitment::StakeCommitment (proof.cpp lines 24-35), legacy toggle
explicit: a copy of the proof id in legacy mode, else
H(expiration_time followed by master). -/
def Proof.stakeCommitment (legacy : Bool) (p : Proof) : List Nat :=
  if legacy then p.proofid legacy
  else hashBytes (serI64 p.expirationTime ++ serPubKey p.master)

/-- One COIN in smallest units. -/
def COIN : Int := 100000000

/-- Largest int64 value. -/
def INT64_MAX : Int := 2 ^ 63 - 1

/-- Smallest int64 value. -/
def INT64_MIN : Int := -(2 ^ 63)

/-- Two's-complement int64 wrap of an integer, the behaviour of the int64
multiplication 100 * amount on every real target (signed overflow is
undefined in C++ and wraps two's-complement in practice). -/
def wrapI64 (v : Int) : Int := (v + 2 ^ 63) % 2 ^ 64 - 2 ^ 63

/-- Amount addition used by the summation in computeScore.  Modelled from the
spec: Amount provides scalar arithmetic with saturating add for summation
(amount.h is not under src/). -/
def amountAdd (a b : Int) : Int :=
  if INT64_MAX < a + b then INT64_MAX
  else if a + b < INT64_MIN then INT64_MIN
  else a + b

/-- Proof::amountToScore (proof.cpp lines 114-116): (100 * amount) / COIN with
the int64 product wrapped, C++ truncating int64 division, and the implicit
narrowing to uint32 on return. -/
def amountToScore (amount : Int) : Nat :=
  (Int.tdiv (wrapI64 (100 * amount)) COIN % (2 ^ 32 : Int)).toNat

/-- Proof::computeScore (proof.cpp lines 105-112): sum the stake amounts into a
running Amount total and convert to a score. -/
def Proof.score (p : Proof) : Nat :=
  amountToScore (p.stakes.foldl (fun total s => amountAdd total s.stake.amount) 0)

/-! ## Policy collaborators of the verifiers -/

/-- Pay-to-pubkey-hash template: OP_DUP OP_HASH160 push20 h OP_EQUALVERIFY OP_CHECKSIG. -/
def isP2PKH (script : List Nat) : Bool :=
  decide (script.length = 25) && script.take 3 == [118, 169, 20]
    && script.drop 23 == [136, 172]

/-- Pay-to-script-hash template: OP_HASH160 push20 h OP_EQUAL. -/
def isP2SH (script : List Nat) : Bool :=
  decide (script.length = 23) && script.take 2 == [169, 20] && script.drop 22 == [135]

/-- IsStandard script classifier (policy/policy.cpp, not under src/).
Modelled from the spec: a standard script is one classifiable into a recognized
template set; the two templates above are the recognized representatives. -/
def isStandardScript (script : List Nat) : Bool := isP2PKH script || isP2SH script

/-- A standard single-recipient destination. -/
inductive CTxDestination where
  | PKHashDest (h : List Nat)
  | ScriptHashDest (h : List Nat)
deriving DecidableEq, Repr

/-- ExtractDestination (script/standard.cpp, not under src/).  Modelled from
the spec: parse the coin's script into a standard single-recipient form, where
only the PubKeyHash variant is supported downstream. -/
def extractDestination (script : List Nat) : Option CTxDestination :=
  if isP2PKH script then some (.PKHashDest ((script.drop 3).take 20))
  else if isP2SH script then some (.ScriptHashDest ((script.drop 2).take 20))
  else none

/-- hash160 of a public key, consumed through a narrow interface.  Modelled
from the spec: PKHash(pubkey) = hash160(pubkey), idealized as an injective
20-byte digest of the key bytes. -/
def hash160 (pk : List Nat) : List Nat := (pk ++ List.replicate 20 0).take 20

/-! ## Validation -/

/-- ProofValidationResult (avalanche/validation.h). -/
inductive ProofValidationResult where
  | NONE
  | NO_STAKE
  | TOO_MANY_UTXOS
  | DUST_THRESHOLD
  | WRONG_STAKE_ORDERING
  | DUPLICATE_STAKE
  | INVALID_STAKE_SIGNATURE
  | INVALID_PROOF_SIGNATURE
  | INVALID_PAYOUT_SCRIPT
  | EXPIRED
  | MISSING_UTXO
  | IMMATURE_UTXO
  | COINBASE_MISMATCH
  | HEIGHT_MISMATCH
  | AMOUNT_MISMATCH
  | NON_STANDARD_DESTINATION
  | DESTINATION_NOT_SUPPORTED
  | DESTINATION_MISMATCH
deriving DecidableEq, Repr

/-- The per-stake loop of Proof::verify (structural overload), proof.cpp lines
150-178: dust, ordering (with running prev_stakeid), duplicate UTXO (with the
seen set) and stake signature, in that order, first failure wins. -/
def verifyStakes (commitment : List Nat) (dust : Int) :
    List Nat → List OutPoint → List SignedStake → ProofValidationResult
  | _, _, [] => .NONE
  | prevId, utxos, ss :: rest =>
    if ss.stake.amount < dust then .DUST_THRESHOLD
    else if ltBytes ss.stake.stakeid prevId then .WRONG_STAKE_ORDERING
    else if ss.stake.utxo ∈ utxos then .DUPLICATE_STAKE
    else if ¬ ss.verify commitment then .INVALID_STAKE_SIGNATURE
    else verifyStakes commitment dust ss.stake.stakeid (ss.stake.utxo :: utxos) rest

/-- Proof::verify (structural overload), proof.cpp lines 125-181, with the
legacy toggle explicit. -/
def Proof.verifyStructural (legacy : Bool) (dust : Int) (p : Proof) : ProofValidationResult :=
  if p.stakes.isEmpty then .NO_STAKE
  else if AVALANCHE_MAX_PROOF_STAKES < p.stakes.length then .TOO_MANY_UTXOS
  else if !legacy && !(isStandardScript p.payoutScriptPubKey) then .INVALID_PAYOUT_SCRIPT
  else if !legacy && !(verifySchnorr p.master (p.limitedProofId legacy) p.signature) then
    .INVALID_PROOF_SIGNATURE
  else verifyStakes (p.stakeCommitment legacy) dust zeroStakeId [] p.stakes

/-- A coin looked up in the UTXO set. -/
structure Coin where
  height : Nat
  iscoinbase : Bool
  amount : Int
  script : List Nat
deriving DecidableEq, Repr

/-- The chain context consumed by the chain verifier: active tip median time
past (none when there is no tip), active chain height, the configured minimum
stake UTXO confirmations, and the UTXO set lookup. -/
structure ChainView where
  tipMTP : Option Int
  activeHeight : Int
  minConfs : Int
  getCoin : OutPoint → Option Coin

/-- The per-stake loop of Proof::verify (chain overload), proof.cpp lines
204-269: UTXO lookup, maturity on the stake's declared height, coinbase flag,
height, amount, destination extraction, destination kind, destination match. -/
def verifyChainStakes (cv : ChainView) : List SignedStake → ProofValidationResult
  | [] => .NONE
  | ss :: rest =>
    let s := ss.stake
    match cv.getCoin s.utxo with
    | none => .MISSING_UTXO
    | some coin =>
      if cv.activeHeight < (s.height : Int) + cv.minConfs - 1 then .IMMATURE_UTXO
      else if s.iscoinbase ≠ coin.iscoinbase then .COINBASE_MISMATCH
      else if s.height ≠ coin.height then .HEIGHT_MISMATCH
      else if s.amount ≠ coin.amount then .AMOUNT_MISMATCH
      else
        match extractDestination coin.script with
        | none => .NON_STANDARD_DESTINATION
        | some (.ScriptHashDest _) => .DESTINATION_NOT_SUPPORTED
        | some (.PKHashDest h) =>
          if h ≠ hash160 s.pubkey then .DESTINATION_MISMATCH
          else verifyChainStakes cv rest

/-- Proof::verify (chain overload), proof.cpp lines 183-272: structural
verification, then the expiration check against the tip median time past
(0 when there is no tip), then the per-stake chain checks. -/
def Proof.verifyChain (legacy : Bool) (dust : Int) (cv : ChainView) (p : Proof) :
    ProofValidationResult :=
  let r := p.verifyStructural legacy dust
  if r ≠ .NONE then r
  else
    let tipMedianTimePast := cv.tipMTP.getD 0
    if 0 < p.expirationTime ∧ p.expirationTime ≤ tipMedianTimePast then .EXPIRED
    else verifyChainStakes cv p.stakes

/-! ## Spec-side counterparts and helper lemmas -/

/-- The LimitedProofId hash input laid out as the spec words it (refinement
counterpart of Proof.limitedProofId, written from §4.2 of the spec): sequence,
expiration time, the payout script in current mode only, the compact size of
the stake count, then each stake's canonical encoding in list order with the
signatures excluded. -/
def limitedProofIdSpecLayout (legacy : Bool) (p : Proof) : List Nat :=
  hashBytes (serLE 8 p.sequence ++ serI64 p.expirationTime
    ++ (if legacy then [] else serScriptBytes p.payoutScriptPubKey)
    ++ writeCompactSize p.stakes.length
    ++ (p.stakes.map (fun s => s.stake.serialize)).flatten)

theorem foldl_append_serialize (l : List SignedStake) (acc : List Nat) :
    l.foldl (fun a s => a ++ s.stake.serialize) acc
      = acc ++ (l.map (fun s => s.stake.serialize)).flatten := by
  induction l generalizing acc with
  | nil => simp
  | cons x xs ih => simp [ih, List.append_assoc]

theorem wrapI64_eq_self {v : Int} (h1 : -(2 ^ 63) ≤ v) (h2 : v ≤ 2 ^ 63 - 1) :
    wrapI64 v = v := by
  unfold wrapI64
  omega

theorem amounts_sum_nonneg {l : List SignedStake} (h : ∀ ss ∈ l, 0 ≤ ss.stake.amount) :
    0 ≤ (l.map (fun s => s.stake.amount)).sum := by
  apply List.sum_nonneg
  intro x hx
  obtain ⟨t, ht, rfl⟩ := List.mem_map.mp hx
  exact h t ht

theorem foldl_amountAdd_eq_sum (l : List SignedStake) :
    ∀ acc : Int, 0 ≤ acc →
      (∀ ss ∈ l, 0 ≤ ss.stake.amount) →
      acc + (l.map (fun s => s.stake.amount)).sum ≤ INT64_MAX →
      l.foldl (fun total s => amountAdd total s.stake.amount) acc
        = acc + (l.map (fun s => s.stake.amount)).sum := by
  induction l with
  | nil =>
    intro acc h0 hnn hbd
    simp
  | cons ss rest ih =>
    intro acc h0 hnn hbd
    have hssnn : 0 ≤ ss.stake.amount := hnn ss (by simp)
    have hrestnn : ∀ t ∈ rest, 0 ≤ t.stake.amount := fun t ht => hnn t (by simp [ht])
    have hsum : 0 ≤ (rest.map (fun s => s.stake.amount)).sum := amounts_sum_nonneg hrestnn
    simp only [List.map_cons, List.sum_cons] at hbd ⊢
    unfold INT64_MAX at hbd
    have hstep : amountAdd acc ss.stake.amount = acc + ss.stake.amount := by
      unfold amountAdd INT64_MAX INT64_MIN
      split_ifs with hA hB
      · exfalso; omega
      · exfalso; omega
      · rfl
    rw [List.foldl_cons, hstep,
      ih (acc + ss.stake.amount) (by omega) hrestnn (by unfold INT64_MAX; omega)]
    ring

/-- C2: the limited proof id hashes, in order, the sequence, the expiration
time, the payout script in current mode only, the compact size of the stake
count and each stake's canonical encoding in list order without its signature;
the proof id hashes the limited proof id followed by the master public key. -/
theorem limitedProofId_and_proofid_layout (legacy : Bool) (p : Proof) :
    p.limitedProofId legacy = limitedProofIdSpecLayout legacy p ∧
      p.proofid legacy = hashBytes (p.limitedProofId legacy ++ serPubKey p.master) := by
  constructor
  · unfold Proof.limitedProofId limitedProofIdSpecLayout
    cases legacy <;>
      simp [foldl_append_serialize, List.append_assoc]
  · rfl

/-- C4 (amended): for every proof whose stake amounts are nonnegative and
whose total S keeps the product 100 * S within int64, the score is
(100 * S) / COIN with truncating integer division, returned as a u32, with
COIN = 100000000; beyond those bounds the int64 accumulation saturates and
the product wraps, and the identity fails. -/
theorem score_eq_truncating_formula (p : Proof)
    (hnn : ∀ ss ∈ p.stakes, 0 ≤ ss.stake.amount)
    (hbound : 100 * (p.stakes.map (fun s => s.stake.amount)).sum ≤ INT64_MAX) :
    p.score = ((Int.tdiv (100 * (p.stakes.map (fun s => s.stake.amount)).sum) 100000000)
      % (2 ^ 32 : Int)).toNat := by
  have hs : 0 ≤ (p.stakes.map (fun s => s.stake.amount)).sum := amounts_sum_nonneg hnn
  unfold INT64_MAX at hbound
  unfold Proof.score amountToScore
  rw [foldl_amountAdd_eq_sum p.stakes 0 le_rfl hnn (by unfold INT64_MAX; omega), zero_add,
    wrapI64_eq_self (by omega) (by omega)]
  norm_num [COIN]


/-- C7: in current mode the stake commitment is the hash of the expiration
time followed by the master key, so any two proofs agreeing on those two
fields share it, whatever their stakes, sequence or payout script. -/
theorem stakeCommitment_current_only_exp_master (p q : Proof)
    (hexp : p.expirationTime = q.expirationTime) (hm : p.master = q.master) :
    p.stakeCommitment false = q.stakeCommitment false ∧
      p.stakeCommitment false = hashBytes (serI64 p.expirationTime ++ serPubKey p.master) := by
  unfold Proof.stakeCommitment
  simp [hexp, hm]

/-- C10: in legacy mode the payout script and proof signature fields touch
neither the identity hashes nor structural verification. -/
theorem legacy_ignores_payout_and_signature (dust : Int) (p : Proof) (x y : List Nat) :
    (Proof.mk p.sequence p.expirationTime p.master x p.stakes y).limitedProofId true
        = p.limitedProofId true ∧
      (Proof.mk p.sequence p.expirationTime p.master x p.stakes y).proofid true
        = p.proofid true ∧
      (Proof.mk p.sequence p.expirationTime p.master x p.stakes y).verifyStructural true dust
        = p.verifyStructural true dust :=
  ⟨rfl, rfl, rfl⟩

/-! ## Concrete objects for witnesses and counterexamples -/

/-- A sample compressed public key. -/
def exKeyM : List Nat := 2 :: List.replicate 32 7

/-- A second sample compressed public key. -/
def exKeyS : List Nat := 3 :: List.replicate 32 9

/-- A sample stake over a 10-COIN UTXO at height 100. -/
def exStakeA : Stake := ⟨⟨List.replicate 32 1, 0⟩, 1000000000, 100, false, exKeyS⟩

/-- A proof holding one stake (the stake signature is left invalid; identity
derivation does not look at it). -/
def exProofA : Proof := ⟨42, 5000, exKeyM, [1, 2, 3], [⟨exStakeA, List.replicate 64 0⟩], []⟩

/-- A proof agreeing with exProofA on expiration time and master only. -/
def exProofB : Proof := ⟨43, 5000, exKeyM, [9], [], [5]⟩

/-- Witness for C7 at two concrete proofs differing in sequence, payout script,
stakes and signature. -/
theorem stakeCommitment_current_only_exp_master_witness :
    exProofA.stakeCommitment false = exProofB.stakeCommitment false :=
  (stakeCommitment_current_only_exp_master exProofA exProofB rfl rfl).1

/-! ## C3: expiration -/

theorem verifyChainStakes_ne_expired (cv : ChainView) (l : List SignedStake) :
    verifyChainStakes cv l ≠ .EXPIRED := by
  induction l with
  | nil => simp [verifyChainStakes]
  | cons ss rest ih =>
    simp only [verifyChainStakes]
    cases cv.getCoin ss.stake.utxo with
    | none => simp
    | some coin =>
      rcases hext : extractDestination coin.script with _ | d
      · simp only [hext]
        split_ifs <;> simp
      · cases d with
        | PKHashDest hh =>
          simp only [hext]
          split_ifs <;> simp [ih]
        | ScriptHashDest hh =>
          simp only [hext]
          split_ifs <;> simp

/-- C3: once structural verification passed, the chain verifier reports
Expired exactly when the expiration time is positive and the tip median time
past (0 with no tip) has reached it, whatever the UTXO set holds. -/
theorem expired_iff (legacy : Bool) (dust : Int) (cv : ChainView) (p : Proof)
    (h : p.verifyStructural legacy dust = .NONE) :
    p.verifyChain legacy dust cv = .EXPIRED ↔
      0 < p.expirationTime ∧ cv.tipMTP.getD 0 ≥ p.expirationTime := by
  simp only [Proof.verifyChain, h]
  by_cases hc : 0 < p.expirationTime ∧ p.expirationTime ≤ cv.tipMTP.getD 0
  · simp [hc, ge_iff_le]
  · simp only [ne_eq, not_true_eq_false, if_false, if_neg hc, ge_iff_le]
    simp [verifyChainStakes_ne_expired cv p.stakes, hc]

/-- A stake used to build structurally valid proofs: 10 COIN, height 100,
not coinbase. -/
def exChainStake : Stake := ⟨⟨List.replicate 32 2, 1⟩, 1000000000, 100, false, exKeyS⟩

/-- The proof before its stake is signed (the commitment ignores stake
signatures, so it can be computed here). -/
def exProofCBase : Proof :=
  ⟨42, 1000000, exKeyM, [], [⟨exChainStake, []⟩], List.replicate 64 0⟩

/-- A structurally valid legacy proof with expiration time 1000000. -/
def exProofC : Proof :=
  ⟨42, 1000000, exKeyM, [],
    [⟨exChainStake, schnorrSigOf exKeyS (exChainStake.getHash (exProofCBase.stakeCommitment true))⟩],
    List.replicate 64 0⟩

/-- A chain view whose tip median time past equals exProofC's expiration. -/
def exViewExp : ChainView := ⟨some 1000000, 250, 100, fun _ => none⟩

/-- Witness for C3: boundary median time past is inclusive. -/
theorem expired_iff_witness :
    exProofC.verifyChain true 100000000 exViewExp = .EXPIRED :=
  (expired_iff true 100000000 exViewExp exProofC (by decide)).mpr (by decide)

/-! ## C6: fail-fast order of the structural verifier -/

/-- Previous stake id as the spec words it: zero before the first stake,
otherwise the id of the immediately preceding processed stake. -/
def prevIdOf (processed : List SignedStake) : List Nat :=
  match processed.getLast? with
  | none => zeroStakeId
  | some ss => ss.stake.stakeid

/-- §4.3 step 5 at one position, driven by the processed prefix: dust,
ordering, UTXO uniqueness, stake signature, first failure wins. -/
def specStakeCheck (commitment : List Nat) (dust : Int)
    (processed : List SignedStake) (ss : SignedStake) : ProofValidationResult :=
  if ss.stake.amount < dust then .DUST_THRESHOLD
  else if ltBytes ss.stake.stakeid (prevIdOf processed) then .WRONG_STAKE_ORDERING
  else if ss.stake.utxo ∈ processed.map (fun t => t.stake.utxo) then .DUPLICATE_STAKE
  else if ¬ ss.verify commitment then .INVALID_STAKE_SIGNATURE
  else .NONE

/-- §4.3 step 5: visit the stakes in list order, each judged against the
processed prefix, surfacing the first failure. -/
def specStakeLoop (commitment : List Nat) (dust : Int) :
    List SignedStake → List SignedStake → ProofValidationResult
  | _, [] => .NONE
  | processed, ss :: rest =>
    let r := specStakeCheck commitment dust processed ss
    if r ≠ .NONE then r else specStakeLoop commitment dust (processed ++ [ss]) rest

/-- The StructuralVerifier as the numbered algorithm of §4.3 of the spec
(refinement counterpart of Proof.verifyStructural). -/
def specStructuralVerify (legacy : Bool) (dust : Int) (p : Proof) : ProofValidationResult :=
  if p.stakes = [] then .NO_STAKE
  else if AVALANCHE_MAX_PROOF_STAKES < p.stakes.length then .TOO_MANY_UTXOS
  else if legacy = false ∧ isStandardScript p.payoutScriptPubKey = false then
    .INVALID_PAYOUT_SCRIPT
  else if legacy = false ∧ verifySchnorr p.master (p.limitedProofId legacy) p.signature = false then
    .INVALID_PROOF_SIGNATURE
  else specStakeLoop (p.stakeCommitment legacy) dust [] p.stakes


theorem specStakeLoop_cons (c : List Nat) (d : Int) (processed : List SignedStake)
    (ss : SignedStake) (rest : List SignedStake) :
    specStakeLoop c d processed (ss :: rest)
      = if ss.stake.amount < d then .DUST_THRESHOLD
        else if ltBytes ss.stake.stakeid (prevIdOf processed) then .WRONG_STAKE_ORDERING
        else if ss.stake.utxo ∈ processed.map (fun t => t.stake.utxo) then .DUPLICATE_STAKE
        else if ¬ ss.verify c then .INVALID_STAKE_SIGNATURE
        else specStakeLoop c d (processed ++ [ss]) rest := by
  simp only [specStakeLoop, specStakeCheck]
  split_ifs <;> simp_all

theorem prevIdOf_concat (processed : List SignedStake) (ss : SignedStake) :
    prevIdOf (processed ++ [ss]) = ss.stake.stakeid := by
  simp [prevIdOf]

theorem verifyStakes_eq_specLoop (c : List Nat) (d : Int) (remaining : List SignedStake) :
    ∀ (processed : List SignedStake) (utxos : List OutPoint),
    (∀ x : OutPoint, x ∈ utxos ↔ x ∈ processed.map (fun t => t.stake.utxo)) →
    verifyStakes c d (prevIdOf processed) utxos remaining
      = specStakeLoop c d processed remaining := by
  induction remaining with
  | nil => intro processed utxos h; rfl
  | cons ss rest ih =>
    intro processed utxos h
    rw [specStakeLoop_cons]
    simp only [verifyStakes]
    by_cases h1 : ss.stake.amount < d
    · simp [h1]
    · by_cases h2 : ltBytes ss.stake.stakeid (prevIdOf processed) = true
      · simp [h1, h2]
      · by_cases h3 : ss.stake.utxo ∈ processed.map (fun t => t.stake.utxo)
        · simp [h1, h2, h3, (h ss.stake.utxo).mpr h3]
        · have h3' : ss.stake.utxo ∉ utxos := fun hx => h3 ((h ss.stake.utxo).mp hx)
          by_cases h4 : ss.verify c = true
          · simp only [if_neg h1, if_neg h2, if_neg h3, if_neg h3',
              if_neg (not_not_intro h4)]
            rw [← prevIdOf_concat processed ss]
            exact ih (processed ++ [ss]) (ss.stake.utxo :: utxos) (fun x => by
              simp only [List.mem_cons, List.map_append, List.mem_append, List.map_cons,
                List.map_nil, h x]
              tauto)
          · simp [h1, h2, h3, h3', h4]

theorem verifyStructural_spec_aux (legacy : Bool) (dust : Int) (p : Proof) :
    p.verifyStructural legacy dust = specStructuralVerify legacy dust p := by
  unfold Proof.verifyStructural specStructuralVerify
  have hloop := verifyStakes_eq_specLoop (p.stakeCommitment legacy) dust p.stakes [] [] (by simp)
  have hz : prevIdOf [] = zeroStakeId := rfl
  rw [hz] at hloop
  by_cases h0 : p.stakes = []
  · simp [h0]
  · have h0' : p.stakes.isEmpty = false := by cases hp : p.stakes <;> simp_all
    simp only [h0', Bool.false_eq_true, if_false, if_neg h0]
    by_cases hmax : AVALANCHE_MAX_PROOF_STAKES < p.stakes.length
    · simp [hmax]
    · cases legacy
      · simp only [if_neg hmax]
        cases hstd : isStandardScript p.payoutScriptPubKey
        · simp [hstd]
        · cases hsig : verifySchnorr p.master (p.limitedProofId false) p.signature
          · simp [hstd, hsig]
          · simp [hstd, hsig, hloop]
      · simp [hmax, hloop]

/-- C6: the structural verifier is exactly the fail-fast algorithm of §4.3:
NoStake on an empty list, else TooManyUtxos above the ceiling, then in current
mode payout-script standardness before the proof signature, then per stake in
list order dust, ordering, uniqueness and signature, the first failing check's
reason returned, ok only when every check passes. -/
theorem verifyStructural_fail_fast (legacy : Bool) (dust : Int) (p : Proof) :
    p.verifyStructural legacy dust = specStructuralVerify legacy dust p :=
  verifyStructural_spec_aux legacy dust p

/-! ## C5: the ordering check -/

/-- Every stake of the list passes all four per-stake checks, the processed
prefix growing along the way. -/
def allStakesPass (c : List Nat) (d : Int) : List SignedStake → List SignedStake → Prop
  | _, [] => True
  | processed, ss :: rest =>
    specStakeCheck c d processed ss = .NONE ∧ allStakesPass c d (processed ++ [ss]) rest

/-- The global (pre-loop) checks of the structural verifier all pass. -/
def structuralGlobalsPass (legacy : Bool) (p : Proof) : Prop :=
  p.stakes ≠ [] ∧ ¬ AVALANCHE_MAX_PROOF_STAKES < p.stakes.length ∧
    (legacy = false → isStandardScript p.payoutScriptPubKey = true ∧
      verifySchnorr p.master (p.limitedProofId legacy) p.signature = true)

theorem specStakeLoop_eq_iff (c : List Nat) (d : Int) (r : ProofValidationResult)
    (hr : r ≠ .NONE) (l : List SignedStake) :
    ∀ processed, specStakeLoop c d processed l = r ↔
      ∃ l1 ss l2, l = l1 ++ ss :: l2 ∧ allStakesPass c d processed l1 ∧
        specStakeCheck c d (processed ++ l1) ss = r := by
  induction l with
  | nil =>
    intro processed
    constructor
    · intro h
      rw [show specStakeLoop c d processed [] = .NONE from rfl] at h
      exact absurd h.symm hr
    · rintro ⟨l1, ss, l2, habs, -, -⟩
      exact absurd habs (by cases l1 <;> simp)
  | cons ss rest ih =>
    intro processed
    by_cases hc : specStakeCheck c d processed ss = .NONE
    · have hL : specStakeLoop c d processed (ss :: rest)
          = specStakeLoop c d (processed ++ [ss]) rest := by
        simp [specStakeLoop, hc]
      rw [hL, ih (processed ++ [ss])]
      constructor
      · rintro ⟨l1, ss', l2, heq, hpass, hchk⟩
        exact ⟨ss :: l1, ss', l2, by simp [heq], ⟨hc, hpass⟩,
          by simpa [List.append_assoc] using hchk⟩
      · rintro ⟨l1, ss', l2, heq, hpass, hchk⟩
        cases l1 with
        | nil =>
          simp only [List.nil_append, List.cons.injEq] at heq
          obtain ⟨rfl, rfl⟩ := heq
          rw [List.append_nil] at hchk
          exact absurd (hchk.symm.trans hc) hr
        | cons a l1' =>
          simp only [List.cons_append, List.cons.injEq] at heq
          obtain ⟨rfl, hrest⟩ := heq
          obtain ⟨-, hpass'⟩ := hpass
          exact ⟨l1', ss', l2, hrest, hpass', by simpa [List.append_assoc] using hchk⟩
    · have hL : specStakeLoop c d processed (ss :: rest) = specStakeCheck c d processed ss := by
        simp [specStakeLoop, hc]
      rw [hL]
      constructor
      · intro h
        exact ⟨[], ss, rest, rfl, trivial, by simpa using h⟩
      · rintro ⟨l1, ss', l2, heq, hpass, hchk⟩
        cases l1 with
        | nil =>
          simp only [List.nil_append, List.cons.injEq] at heq
          obtain ⟨rfl, rfl⟩ := heq
          simpa using hchk
        | cons a l1' =>
          simp only [List.cons_append, List.cons.injEq] at heq
          obtain ⟨rfl, -⟩ := heq
          exact absurd hpass.1 hc

theorem verifyStructural_perStake_iff (legacy : Bool) (dust : Int) (p : Proof)
    (r : ProofValidationResult) (hr1 : r ≠ .NONE) (hr2 : r ≠ .NO_STAKE)
    (hr3 : r ≠ .TOO_MANY_UTXOS) (hr4 : r ≠ .INVALID_PAYOUT_SCRIPT)
    (hr5 : r ≠ .INVALID_PROOF_SIGNATURE) :
    p.verifyStructural legacy dust = r ↔
      structuralGlobalsPass legacy p ∧
        ∃ l1 ss l2, p.stakes = l1 ++ ss :: l2 ∧
          allStakesPass (p.stakeCommitment legacy) dust [] l1 ∧
          specStakeCheck (p.stakeCommitment legacy) dust l1 ss = r := by
  rw [verifyStructural_spec_aux]
  unfold specStructuralVerify structuralGlobalsPass
  by_cases h0 : p.stakes = []
  · simp only [h0, if_pos rfl]
    constructor
    · intro h; exact absurd h.symm hr2
    · rintro ⟨⟨habs, -⟩, -⟩; exact absurd rfl habs
  · rw [if_neg h0]
    by_cases hmax : AVALANCHE_MAX_PROOF_STAKES < p.stakes.length
    · rw [if_pos hmax]
      constructor
      · intro h; exact absurd h.symm hr3
      · rintro ⟨⟨-, habs, -⟩, -⟩; exact absurd hmax habs
    · rw [if_neg hmax]
      cases legacy with
      | false =>
        by_cases hstd : isStandardScript p.payoutScriptPubKey = true
        · rw [if_neg (by simp [hstd])]
          by_cases hsig : verifySchnorr p.master (p.limitedProofId false) p.signature = true
          · rw [if_neg (by simp [hsig])]
            rw [specStakeLoop_eq_iff (p.stakeCommitment false) dust r hr1 p.stakes []]
            simp only [List.nil_append]
            constructor
            · intro h
              exact ⟨⟨h0, hmax, fun _ => ⟨hstd, hsig⟩⟩, h⟩
            · exact fun h => h.2
          · rw [if_pos ⟨rfl, by simpa using hsig⟩]
            constructor
            · intro h; exact absurd h.symm hr5
            · rintro ⟨⟨-, -, hc⟩, -⟩; exact absurd (hc rfl).2 hsig
        · rw [if_pos ⟨rfl, by simpa using hstd⟩]
          constructor
          · intro h; exact absurd h.symm hr4
          · rintro ⟨⟨-, -, hc⟩, -⟩; exact absurd (hc rfl).1 hstd
      | true =>
        rw [if_neg (by simp), if_neg (by simp)]
        rw [specStakeLoop_eq_iff (p.stakeCommitment true) dust r hr1 p.stakes []]
        simp only [List.nil_append]
        constructor
        · intro h
          exact ⟨⟨h0, hmax, fun habs => by simp at habs⟩, h⟩
        · exact fun h => h.2

theorem specStakeCheck_wso_iff (c : List Nat) (d : Int) (processed : List SignedStake)
    (ss : SignedStake) :
    specStakeCheck c d processed ss = .WRONG_STAKE_ORDERING ↔
      ¬ ss.stake.amount < d ∧ ltBytes ss.stake.stakeid (prevIdOf processed) = true := by
  unfold specStakeCheck
  split_ifs <;> simp_all

theorem specStakeCheck_dup_iff (c : List Nat) (d : Int) (processed : List SignedStake)
    (ss : SignedStake) :
    specStakeCheck c d processed ss = .DUPLICATE_STAKE ↔
      ¬ ss.stake.amount < d ∧ ltBytes ss.stake.stakeid (prevIdOf processed) = false ∧
        ss.stake.utxo ∈ processed.map (fun t => t.stake.utxo) := by
  unfold specStakeCheck
  split_ifs <;> simp_all

theorem ltBytes_replicate_zero : ∀ (k : Nat) (l : List Nat), k ≤ l.length →
    ltBytes l (List.replicate k 0) = false
  | 0, l, _ => by cases l <;> rfl
  | k + 1, [], h => by simp at h
  | k + 1, a :: as, h => by
    simp only [List.replicate, ltBytes]
    rw [if_neg (Nat.not_lt_zero a)]
    by_cases ha : 0 < a
    · simp [ha]
    · have ha0 : a = 0 := by omega
      subst ha0
      simp only [lt_irrefl, if_false]
      exact ltBytes_replicate_zero k as (by simpa using h)

/-- A dust-failing stake with a high stake id (txid bytes 9). -/
def exStakeDustHi : Stake := ⟨⟨List.replicate 32 9, 0⟩, 50000000, 100, false, exKeyS⟩

/-- A well-funded stake with a low stake id (txid bytes 5). -/
def exStakeLo : Stake := ⟨⟨List.replicate 32 5, 0⟩, 1000000000, 100, false, exKeyS⟩

/-- A legacy proof whose stakes hold a strict stake-id inversion behind a
dust-failing first stake. -/
def exInvProof : Proof :=
  ⟨1, 0, exKeyM, [], [⟨exStakeDustHi, []⟩, ⟨exStakeLo, []⟩], List.replicate 64 0⟩

/-- Counterexample to C5 as stated: the stakes of exInvProof contain a strict
stake-id inversion, yet with dust threshold 1 COIN the verifier reports
DustThreshold, not WrongStakeOrdering — the iff fails in the only-if-not
direction because validation is fail-fast. -/
theorem wrongStakeOrdering_iff_counterexample :
    ltBytes exStakeLo.stakeid exStakeDustHi.stakeid = true ∧
      exInvProof.stakes = [⟨exStakeDustHi, []⟩, ⟨exStakeLo, []⟩] ∧
      exInvProof.verifyStructural true 100000000 = .DUST_THRESHOLD ∧
      ¬ exInvProof.verifyStructural true 100000000 = .WRONG_STAKE_ORDERING :=
  ⟨by decide, rfl, by decide, by decide⟩

/-- C5 (amended): WrongStakeOrdering is reported iff the global checks pass
and, at the first position failing any per-stake check, the dust check passes
and the stake id is strictly below the previous stake id; with genuine 256-bit
stake identifiers and no strictly descending adjacent pair the verifier never
reports WrongStakeOrdering (so consecutive equal stake ids are permitted); and
DuplicateStake is reported iff at that first failing position dust and
ordering pass and the outpoint repeats an earlier stake's. -/
theorem wrongStakeOrdering_characterization (legacy : Bool) (dust : Int) (p : Proof) :
    (p.verifyStructural legacy dust = .WRONG_STAKE_ORDERING ↔
      structuralGlobalsPass legacy p ∧
        ∃ l1 ss l2, p.stakes = l1 ++ ss :: l2 ∧
          allStakesPass (p.stakeCommitment legacy) dust [] l1 ∧
          ¬ ss.stake.amount < dust ∧ ltBytes ss.stake.stakeid (prevIdOf l1) = true) ∧
    ((∀ ss ∈ p.stakes, 32 ≤ ss.stake.stakeid.length) →
      (∀ l1 a b l2, p.stakes = l1 ++ a :: b :: l2 →
        ltBytes b.stake.stakeid a.stake.stakeid = false) →
      p.verifyStructural legacy dust ≠ .WRONG_STAKE_ORDERING) ∧
    (p.verifyStructural legacy dust = .DUPLICATE_STAKE ↔
      structuralGlobalsPass legacy p ∧
        ∃ l1 ss l2, p.stakes = l1 ++ ss :: l2 ∧
          allStakesPass (p.stakeCommitment legacy) dust [] l1 ∧
          ¬ ss.stake.amount < dust ∧ ltBytes ss.stake.stakeid (prevIdOf l1) = false ∧
          ss.stake.utxo ∈ l1.map (fun t => t.stake.utxo)) := by
  have h1 : p.verifyStructural legacy dust = .WRONG_STAKE_ORDERING ↔
      structuralGlobalsPass legacy p ∧
        ∃ l1 ss l2, p.stakes = l1 ++ ss :: l2 ∧
          allStakesPass (p.stakeCommitment legacy) dust [] l1 ∧
          ¬ ss.stake.amount < dust ∧ ltBytes ss.stake.stakeid (prevIdOf l1) = true := by
    rw [verifyStructural_perStake_iff legacy dust p .WRONG_STAKE_ORDERING
      (by simp) (by simp) (by simp) (by simp) (by simp)]
    constructor
    · rintro ⟨hg, l1, ss, l2, heq, hpass, hchk⟩
      obtain ⟨hd, ho⟩ := (specStakeCheck_wso_iff _ _ _ _).mp hchk
      exact ⟨hg, l1, ss, l2, heq, hpass, hd, ho⟩
    · rintro ⟨hg, l1, ss, l2, heq, hpass, hd, ho⟩
      exact ⟨hg, l1, ss, l2, heq, hpass, (specStakeCheck_wso_iff _ _ _ _).mpr ⟨hd, ho⟩⟩
  refine ⟨h1, ?_, ?_⟩
  · intro hlen hadj habs
    obtain ⟨-, l1, ss, l2, heq, -, -, ho⟩ := h1.mp habs
    rcases List.eq_nil_or_concat l1 with rfl | ⟨l1', a, rfl⟩
    · have : ltBytes ss.stake.stakeid zeroStakeId = false :=
        ltBytes_replicate_zero 32 ss.stake.stakeid (hlen ss (by simp [heq]))
      rw [show prevIdOf [] = zeroStakeId from rfl] at ho
      simp [this] at ho
    · rw [List.concat_eq_append] at heq ho
      rw [prevIdOf_concat] at ho
      have : ltBytes ss.stake.stakeid a.stake.stakeid = false := by
        apply hadj l1' a ss l2
        simpa [List.append_assoc] using heq
      simp [this] at ho
  · rw [verifyStructural_perStake_iff legacy dust p .DUPLICATE_STAKE
      (by simp) (by simp) (by simp) (by simp) (by simp)]
    constructor
    · rintro ⟨hg, l1, ss, l2, heq, hpass, hchk⟩
      obtain ⟨hd, ho, hm⟩ := (specStakeCheck_dup_iff _ _ _ _).mp hchk
      exact ⟨hg, l1, ss, l2, heq, hpass, hd, ho, hm⟩
    · rintro ⟨hg, l1, ss, l2, heq, hpass, hd, ho, hm⟩
      exact ⟨hg, l1, ss, l2, heq, hpass, (specStakeCheck_dup_iff _ _ _ _).mpr ⟨hd, ho, hm⟩⟩

/-- A well-funded stake with a high stake id and a valid signature slot. -/
def exStakeHi : Stake := ⟨⟨List.replicate 32 9, 0⟩, 1000000000, 100, false, exKeyS⟩

/-- Base proof used to compute the legacy commitment for the ordering witness
(the commitment ignores stake signatures). -/
def exOrdBase : Proof :=
  ⟨7, 0, exKeyM, [], [⟨exStakeHi, []⟩, ⟨exStakeLo, []⟩], List.replicate 64 0⟩

/-- First stake of the ordering witness, validly signed. -/
def exOrdSigned1 : SignedStake :=
  ⟨exStakeHi, schnorrSigOf exKeyS (exStakeHi.getHash (exOrdBase.stakeCommitment true))⟩

/-- Second stake of the ordering witness: its id sorts strictly below the
first stake's. -/
def exOrdSigned2 : SignedStake := ⟨exStakeLo, []⟩

/-- A legacy proof with a strict stake-id inversion whose first stake passes
every per-stake check. -/
def exOrdProof : Proof := ⟨7, 0, exKeyM, [], [exOrdSigned1, exOrdSigned2], List.replicate 64 0⟩

/-- Witness for the amended C5 at a concrete inverted proof. -/
theorem wrongStakeOrdering_characterization_witness :
    exOrdProof.verifyStructural true 100000000 = .WRONG_STAKE_ORDERING :=
  (wrongStakeOrdering_characterization true 100000000 exOrdProof).1.mpr
    ⟨⟨by decide, by decide, fun habs => by simp at habs⟩,
      [exOrdSigned1], exOrdSigned2, [], rfl, ⟨by decide, trivial⟩, by decide, by decide⟩

/-! ## C1 and C9: the chain-side per-stake checks -/

/-- One iteration of the chain verifier's per-stake loop in isolation
(proof.cpp lines 204-269 with the continuation replaced by ok). -/
def chainStakeCheck (cv : ChainView) (ss : SignedStake) : ProofValidationResult :=
  let s := ss.stake
  match cv.getCoin s.utxo with
  | none => .MISSING_UTXO
  | some coin =>
    if cv.activeHeight < (s.height : Int) + cv.minConfs - 1 then .IMMATURE_UTXO
    else if s.iscoinbase ≠ coin.iscoinbase then .COINBASE_MISMATCH
    else if s.height ≠ coin.height then .HEIGHT_MISMATCH
    else if s.amount ≠ coin.amount then .AMOUNT_MISMATCH
    else
      match extractDestination coin.script with
      | none => .NON_STANDARD_DESTINATION
      | some (.ScriptHashDest _) => .DESTINATION_NOT_SUPPORTED
      | some (.PKHashDest h) =>
        if h ≠ hash160 s.pubkey then .DESTINATION_MISMATCH
        else .NONE

theorem verifyChainStakes_cons_eq (cv : ChainView) (ss : SignedStake) (rest : List SignedStake) :
    verifyChainStakes cv (ss :: rest)
      = if chainStakeCheck cv ss = .NONE then verifyChainStakes cv rest
        else chainStakeCheck cv ss := by
  rcases hc : cv.getCoin ss.stake.utxo with _ | coin
  · simp only [verifyChainStakes, chainStakeCheck, hc]
    simp
  · simp only [verifyChainStakes, chainStakeCheck, hc]
    rcases hext : extractDestination coin.script with _ | d
    · simp only [hext]
      split_ifs <;> simp_all
    · cases d with
      | PKHashDest hh =>
        simp only [hext]
        split_ifs <;> simp_all
      | ScriptHashDest hh =>
        simp only [hext]
        split_ifs <;> simp_all

theorem verifyChainStakes_fail_iff (cv : ChainView) (r : ProofValidationResult)
    (hr : r ≠ .NONE) (l : List SignedStake) :
    verifyChainStakes cv l = r ↔
      ∃ l1 ss l2, l = l1 ++ ss :: l2 ∧ (∀ t ∈ l1, chainStakeCheck cv t = .NONE) ∧
        chainStakeCheck cv ss = r := by
  induction l with
  | nil =>
    simp only [verifyChainStakes]
    constructor
    · intro h; exact absurd h.symm hr
    · rintro ⟨l1, ss, l2, habs, -, -⟩; exact absurd habs (by cases l1 <;> simp)
  | cons ss rest ih =>
    rw [verifyChainStakes_cons_eq]
    by_cases hc : chainStakeCheck cv ss = .NONE
    · rw [if_pos hc, ih]
      constructor
      · rintro ⟨l1, ss', l2, heq, hpre, hchk⟩
        refine ⟨ss :: l1, ss', l2, by simp [heq], ?_, hchk⟩
        intro t ht
        rcases List.mem_cons.mp ht with rfl | ht'
        · exact hc
        · exact hpre t ht'
      · rintro ⟨l1, ss', l2, heq, hpre, hchk⟩
        cases l1 with
        | nil =>
          simp only [List.nil_append, List.cons.injEq] at heq
          obtain ⟨rfl, rfl⟩ := heq
          exact absurd (hchk.symm.trans hc) hr
        | cons a l1' =>
          simp only [List.cons_append, List.cons.injEq] at heq
          obtain ⟨rfl, hrest⟩ := heq
          exact ⟨l1', ss', l2, hrest, fun t ht => hpre t (by simp [ht]), hchk⟩
    · rw [if_neg hc]
      constructor
      · intro h
        exact ⟨[], ss, rest, rfl, by simp, h⟩
      · rintro ⟨l1, ss', l2, heq, hpre, hchk⟩
        cases l1 with
        | nil =>
          simp only [List.nil_append, List.cons.injEq] at heq
          obtain ⟨rfl, rfl⟩ := heq
          exact hchk
        | cons a l1' =>
          simp only [List.cons_append, List.cons.injEq] at heq
          obtain ⟨rfl, -⟩ := heq
          exact absurd (hpre ss (by simp)) hc

theorem chainStakeCheck_immature_iff (cv : ChainView) (ss : SignedStake) :
    chainStakeCheck cv ss = .IMMATURE_UTXO ↔
      (∃ coin, cv.getCoin ss.stake.utxo = some coin) ∧
        cv.activeHeight < (ss.stake.height : Int) + cv.minConfs - 1 := by
  rcases hc : cv.getCoin ss.stake.utxo with _ | coin
  · simp only [chainStakeCheck, hc]
    simp
  · simp only [chainStakeCheck, hc]
    rcases hext : extractDestination coin.script with _ | d
    · simp only [hext]
      split_ifs <;> simp_all
    · cases d with
      | PKHashDest hh =>
        simp only [hext]
        split_ifs <;> simp_all
      | ScriptHashDest hh =>
        simp only [hext]
        split_ifs <;> simp_all

/-- C9: the maturity comparison tests the stake's declared height, not the
looked-up coin's, and runs before the height equality cross-check; so for a
stake whose declared height differs from the coin's, the declared height alone
decides whether ImmatureUtxo is reported instead of HeightMismatch. -/
theorem maturity_uses_declared_height (cv : ChainView) (ss : SignedStake)
    (rest : List SignedStake) (coin : Coin)
    (hc : cv.getCoin ss.stake.utxo = some coin)
    (hne : ss.stake.height ≠ coin.height) :
    (cv.activeHeight < (ss.stake.height : Int) + cv.minConfs - 1 →
      verifyChainStakes cv (ss :: rest) = .IMMATURE_UTXO) ∧
    (¬ cv.activeHeight < (ss.stake.height : Int) + cv.minConfs - 1 →
      ss.stake.iscoinbase = coin.iscoinbase →
      verifyChainStakes cv (ss :: rest) = .HEIGHT_MISMATCH) := by
  constructor
  · intro him
    simp only [verifyChainStakes, hc]
    rw [if_pos him]
  · intro him hcb
    simp only [verifyChainStakes, hc]
    rw [if_neg him, if_neg (by simp [hcb]), if_pos hne]

/-- A stake declaring height 300 over a coin recorded at height 100. -/
def exStakeD : Stake := ⟨⟨List.replicate 32 3, 0⟩, 1000000000, 300, false, exKeyS⟩

/-- The coin actually in the UTXO set: height 100, not coinbase, 10 COIN. -/
def exCoinD : Coin := ⟨100, false, 1000000000, []⟩

/-- Chain view at height 250 with 100 minimum confirmations holding exCoinD. -/
def exViewD : ChainView :=
  ⟨some 0, 250, 100, fun o => if o = exStakeD.utxo then some exCoinD else none⟩

/-- Base proof used to compute the legacy commitment for exProofD. -/
def exProofDBase : Proof := ⟨3, 0, exKeyM, [], [⟨exStakeD, []⟩], List.replicate 64 0⟩

/-- exStakeD validly signed against exProofD's legacy commitment. -/
def exSignedD : SignedStake :=
  ⟨exStakeD, schnorrSigOf exKeyS (exStakeD.getHash (exProofDBase.stakeCommitment true))⟩

/-- A structurally valid legacy proof staking exStakeD. -/
def exProofD : Proof := ⟨3, 0, exKeyM, [], [exSignedD], List.replicate 64 0⟩

/-- Witness for C9: declared height 300 at active height 250 with 100
confirmations is reported immature although the coin's height is 100. -/
theorem maturity_uses_declared_height_witness :
    verifyChainStakes exViewD [exSignedD] = .IMMATURE_UTXO :=
  (maturity_uses_declared_height exViewD exSignedD [] exCoinD (by decide) (by decide)).1
    (by decide)

/-- Counterexample to C1 as stated: structural verification passed, the lone
stake's UTXO is found, and the looked-up coin satisfies the claimed maturity
requirement coin.height + min_confs − 1 ≤ active_height (100 + 100 − 1 ≤ 250),
so the claim says ImmatureUtxo is not reported — yet the verifier reports
ImmatureUtxo, because the code tests the stake's declared height 300. -/
theorem immatureUtxo_coin_height_counterexample :
    exProofD.verifyStructural true 100000000 = .NONE ∧
      exViewD.getCoin exStakeD.utxo = some exCoinD ∧
      ((exCoinD.height : Int) + exViewD.minConfs - 1 ≤ exViewD.activeHeight) ∧
      exProofD.verifyChain true 100000000 exViewD = .IMMATURE_UTXO :=
  ⟨by decide, by decide, by decide, by decide⟩

/-- C1 (amended): once structural verification passed and the proof is not
expired, the chain verifier reports ImmatureUtxo exactly when, at the first
stake failing any per-stake chain check, the UTXO is found and the stake's
declared height plus the minimum confirmations minus one exceeds the active
height; no coinbase, height or amount condition enters, those cross-checks
running only after the maturity check. -/
theorem immatureUtxo_characterization (legacy : Bool) (dust : Int) (cv : ChainView)
    (p : Proof) (hs : p.verifyStructural legacy dust = .NONE)
    (hexp : ¬ (0 < p.expirationTime ∧ p.expirationTime ≤ cv.tipMTP.getD 0)) :
    p.verifyChain legacy dust cv = .IMMATURE_UTXO ↔
      ∃ l1 ss l2, p.stakes = l1 ++ ss :: l2 ∧
        (∀ t ∈ l1, chainStakeCheck cv t = .NONE) ∧
        (∃ coin, cv.getCoin ss.stake.utxo = some coin) ∧
        cv.activeHeight < (ss.stake.height : Int) + cv.minConfs - 1 := by
  simp only [Proof.verifyChain, hs]
  rw [if_neg (by simp), if_neg hexp]
  rw [verifyChainStakes_fail_iff cv .IMMATURE_UTXO (by simp) p.stakes]
  constructor
  · rintro ⟨l1, ss, l2, heq, hpre, hchk⟩
    obtain ⟨hcoin, him⟩ := (chainStakeCheck_immature_iff cv ss).mp hchk
    exact ⟨l1, ss, l2, heq, hpre, hcoin, him⟩
  · rintro ⟨l1, ss, l2, heq, hpre, hcoin, him⟩
    exact ⟨l1, ss, l2, heq, hpre, (chainStakeCheck_immature_iff cv ss).mpr ⟨hcoin, him⟩⟩

/-- Witness for the amended C1 at the concrete immature scenario. -/
theorem immatureUtxo_characterization_witness :
    exProofD.verifyChain true 100000000 exViewD = .IMMATURE_UTXO :=
  (immatureUtxo_characterization true 100000000 exViewD exProofD (by decide)
      (by decide)).mpr
    ⟨[], exSignedD, [], rfl, by simp, ⟨exCoinD, by decide⟩, by decide⟩

/-! ## C8: serialization, hex, and the round trip -/

/-- SignedStake wire form: the stake followed by the raw 64-byte signature.
Modelled from the spec: SignedStake line of the codec section. -/
def SignedStake.serialize (ss : SignedStake) : List Nat := ss.stake.serialize ++ ss.sig

/-- Proof wire layout: sequence, expiration, master key and the stake vector,
followed in current mode only by the payout script and the raw proof
signature.  Modelled from the spec: Proof wire layout of §4.1 (the Proof
SERIALIZE_METHODS live in avalanche/proof.h, not under src/). -/
def Proof.serialize (legacy : Bool) (p : Proof) : List Nat :=
  serLE 8 p.sequence ++ serI64 p.expirationTime ++ serPubKey p.master
    ++ writeCompactSize p.stakes.length
    ++ (p.stakes.map SignedStake.serialize).flatten
    ++ (if legacy then [] else serScriptBytes p.payoutScriptPubKey ++ p.signature)

/-- Read a public key: compact size then that many raw bytes. -/
def readPubKey (b : List Nat) : Option (List Nat × List Nat) := do
  let (len, b) ← readCompactSize b
  readBytes len b

/-- Read an outpoint: 32 raw tx id bytes then a u32 index. -/
def readOutPoint (b : List Nat) : Option (OutPoint × List Nat) := do
  let (txid, b) ← readBytes 32 b
  let (ib, b) ← readBytes 4 b
  some (⟨txid, leVal ib⟩, b)

/-- Read a stake, unpacking the coinbase bit from the packed height's LSB. -/
def readStake (b : List Nat) : Option (Stake × List Nat) := do
  let (utxo, b) ← readOutPoint b
  let (ab, b) ← readBytes 8 b
  let (hb, b) ← readBytes 4 b
  let (pk, b) ← readPubKey b
  some (⟨utxo, decI64 (leVal ab), leVal hb / 2, leVal hb % 2 == 1, pk⟩, b)

/-- Read a signed stake: the stake then 64 raw signature bytes. -/
def readSignedStake (b : List Nat) : Option (SignedStake × List Nat) := do
  let (s, b) ← readStake b
  let (sig, b) ← readBytes 64 b
  some (⟨s, sig⟩, b)

/-- Read `n` signed stakes in sequence. -/
def readSignedStakes : Nat → List Nat → Option (List SignedStake × List Nat)
  | 0, b => some ([], b)
  | n + 1, b => do
    let (s, b) ← readSignedStake b
    let (rest, b) ← readSignedStakes n b
    some (s :: rest, b)

/-- Read a byte string: compact size then that many raw bytes. -/
def readScriptBytes (b : List Nat) : Option (List Nat × List Nat) := do
  let (len, b) ← readCompactSize b
  readBytes len b

/-- Payout script of a default-constructed proof, untouched by the legacy
deserializer. -/
def defaultPayoutScript : List Nat := []

/-- Proof signature of a default-constructed proof, untouched by the legacy
deserializer. -/
def defaultSignature : List Nat := List.replicate 64 0

/-- Proof deserialization.  Modelled from the spec: Proof wire layout of
§4.1; in legacy mode the payout script and proof signature are not on the
wire and keep their default-constructed values. -/
def deserializeProof (legacy : Bool) (b : List Nat) : Option (Proof × List Nat) := do
  let (sq, b) ← readBytes 8 b
  let (ex, b) ← readBytes 8 b
  let (master, b) ← readPubKey b
  let (n, b) ← readCompactSize b
  let (stakes, b) ← readSignedStakes n b
  if legacy then
    some (⟨leVal sq, decI64 (leVal ex), master, defaultPayoutScript, stakes,
      defaultSignature⟩, b)
  else do
    let (script, b) ← readScriptBytes b
    let (sig, b) ← readBytes 64 b
    some (⟨leVal sq, decI64 (leVal ex), master, script, stakes, sig⟩, b)

/-- Decoding errors of the hex convenience entry point. -/
inductive ParseError where
  | NotHex
  | MalformedEncoding
deriving DecidableEq, Repr

/-- Proof::FromHex (proof.cpp lines 63-80): reject non-hex input, then decode
the bytes; a trailing remainder after a successful decode is ignored, as the
stream extraction does not require exhaustion. -/
def Proof.fromHex (legacy : Bool) (s : List Char) : Except ParseError Proof :=
  if isHexString s = false then .error .NotHex
  else
    match deserializeProof legacy (hexPairsToBytes s) with
    | some (p, _) => .ok p
    | none => .error .MalformedEncoding

/-- Proof::ToHex (proof.cpp lines 82-86): serialize and render lowercase hex. -/
def Proof.toHex (legacy : Bool) (p : Proof) : List Char := bytesToHex (p.serialize legacy)

/-- A well-formed compressed public key: 33 bytes, compressed tag. -/
def pubkeyOk (pk : List Nat) : Bool :=
  bytesOk pk && decide (pk.length = 33) && (pk.headD 0 == 2 || pk.headD 0 == 3)

/-- A well-formed stake: 32-byte tx id, u32 index, i64 amount, height below
2^31 so the packed height fits a u32, compressed public key. -/
def Stake.wf (s : Stake) : Bool :=
  bytesOk s.utxo.txid && decide (s.utxo.txid.length = 32) && decide (s.utxo.n < 2 ^ 32)
    && decide (-(2 ^ 63) ≤ s.amount) && decide (s.amount < 2 ^ 63)
    && decide (s.height < 2 ^ 31) && pubkeyOk s.pubkey

/-- A well-formed signed stake: well-formed stake and 64 signature bytes. -/
def SignedStake.wf (ss : SignedStake) : Bool :=
  ss.stake.wf && bytesOk ss.sig && decide (ss.sig.length = 64)

/-- A well-formed proof under a format: u64 sequence, i64 expiration,
compressed master key, well-formed stakes below the codec ceiling; in current
mode a byte-valued payout script below the codec ceiling and 64 signature
bytes, in legacy mode the default-constructed payout script and signature. -/
def Proof.wf (legacy : Bool) (p : Proof) : Bool :=
  decide (p.sequence < 2 ^ 64)
    && decide (-(2 ^ 63) ≤ p.expirationTime) && decide (p.expirationTime < 2 ^ 63)
    && pubkeyOk p.master
    && p.stakes.all SignedStake.wf && decide (p.stakes.length ≤ MAX_SIZE)
    && (if legacy then
          p.payoutScriptPubKey == defaultPayoutScript && p.signature == defaultSignature
        else
          bytesOk p.payoutScriptPubKey && decide (p.payoutScriptPubKey.length ≤ MAX_SIZE)
            && bytesOk p.signature && decide (p.signature.length = 64))

theorem readPubKey_ser {pk : List Nat} (h : pk.length ≤ MAX_SIZE) (r : List Nat) :
    readPubKey (serPubKey pk ++ r) = some (pk, r) := by
  unfold readPubKey serPubKey
  rw [List.append_assoc, readCompactSize_write h]
  simp [readBytes_exact rfl]

theorem readScriptBytes_ser {s : List Nat} (h : s.length ≤ MAX_SIZE) (r : List Nat) :
    readScriptBytes (serScriptBytes s ++ r) = some (s, r) := by
  unfold readScriptBytes serScriptBytes
  rw [List.append_assoc, readCompactSize_write h]
  simp [readBytes_exact rfl]

theorem readOutPoint_ser {o : OutPoint} (ht : o.txid.length = 32) (hn : o.n < 2 ^ 32)
    (r : List Nat) :
    readOutPoint (o.txid ++ (serLE 4 o.n ++ r)) = some (o, r) := by
  unfold readOutPoint
  rw [readBytes_exact ht]
  simp only [Option.bind_eq_bind, Option.some_bind]
  rw [readBytes_exact (serLE_length 4 o.n)]
  simp only [Option.bind_eq_bind, Option.some_bind]
  rw [leVal_serLE_of_lt (by norm_num at hn ⊢; omega)]

theorem readStake_ser {s : Stake} (h : s.wf = true) (r : List Nat) :
    readStake (s.serialize ++ r) = some (s, r) := by
  unfold Stake.wf at h
  simp only [Bool.and_eq_true, decide_eq_true_eq] at h
  obtain ⟨⟨⟨⟨⟨⟨hb, ht⟩, hn⟩, ha1⟩, ha2⟩, hh⟩, hpk⟩ := h
  have hpklen : s.pubkey.length ≤ MAX_SIZE := by
    unfold pubkeyOk at hpk
    simp only [Bool.and_eq_true, decide_eq_true_eq] at hpk
    simp [MAX_SIZE, hpk.1.2]
  unfold readStake Stake.serialize
  simp only [List.append_assoc]
  rw [readOutPoint_ser ht hn]
  simp only [Option.bind_eq_bind, Option.some_bind]
  rw [readBytes_exact (show (serI64 s.amount).length = 8 from serLE_length 8 _)]
  simp only [Option.bind_eq_bind, Option.some_bind]
  rw [readBytes_exact (serLE_length 4 _)]
  simp only [Option.bind_eq_bind, Option.some_bind]
  rw [readPubKey_ser hpklen]
  simp only [Option.bind_eq_bind, Option.some_bind]
  have hpacked : leVal (serLE 4 (2 * s.height + if s.iscoinbase then 1 else 0))
      = 2 * s.height + (if s.iscoinbase then 1 else 0) := by
    apply leVal_serLE_of_lt
    have h4 : (256 : Nat) ^ 4 = 2 ^ 32 := by norm_num
    rw [h4]
    cases s.iscoinbase <;> simp <;> omega
  rw [hpacked, decI64_serI64 ha1 ha2]
  have hdiv : (2 * s.height + if s.iscoinbase then 1 else 0) / 2 = s.height := by
    cases s.iscoinbase <;> simp <;> omega
  have hmod : ((2 * s.height + if s.iscoinbase then 1 else 0) % 2 == 1) = s.iscoinbase := by
    cases hcb : s.iscoinbase
    · have hm : (2 * s.height + 0) % 2 = 0 := by omega
      simp [hm]
    · have hm : (2 * s.height + 1) % 2 = 1 := by omega
      simp [hm]
  rw [hdiv, hmod]

theorem readSignedStake_ser {ss : SignedStake} (h : ss.wf = true) (r : List Nat) :
    readSignedStake (ss.serialize ++ r) = some (ss, r) := by
  unfold SignedStake.wf at h
  simp only [Bool.and_eq_true, decide_eq_true_eq] at h
  obtain ⟨⟨hs, -⟩, hlen⟩ := h
  unfold readSignedStake SignedStake.serialize
  rw [List.append_assoc, readStake_ser hs]
  simp only [Option.bind_eq_bind, Option.some_bind]
  rw [readBytes_exact hlen]
  rfl

theorem readSignedStakes_ser {l : List SignedStake} (h : l.all SignedStake.wf = true)
    (r : List Nat) :
    readSignedStakes l.length ((l.map SignedStake.serialize).flatten ++ r) = some (l, r) := by
  induction l with
  | nil => rfl
  | cons ss rest ih =>
    simp only [List.all_cons, Bool.and_eq_true] at h
    simp only [List.length_cons, List.map_cons, List.flatten_cons, List.append_assoc,
      readSignedStakes]
    rw [readSignedStake_ser h.1]
    simp only [Option.bind_eq_bind, Option.some_bind]
    rw [ih h.2]
    rfl

theorem deserializeProof_ser {legacy : Bool} {p : Proof} (h : p.wf legacy = true)
    (r : List Nat) :
    deserializeProof legacy (p.serialize legacy ++ r) = some (p, r) := by
  unfold Proof.wf at h
  simp only [Bool.and_eq_true, decide_eq_true_eq] at h
  obtain ⟨⟨⟨⟨⟨⟨hsq, he1⟩, he2⟩, hmk⟩, hall⟩, hcnt⟩, htail⟩ := h
  have hmklen : p.master.length ≤ MAX_SIZE := by
    unfold pubkeyOk at hmk
    simp only [Bool.and_eq_true, decide_eq_true_eq] at hmk
    simp [MAX_SIZE, hmk.1.2]
  have hseq : p.sequence < 256 ^ 8 := by norm_num at hsq ⊢; omega
  cases legacy
  · simp only [Bool.and_eq_true, decide_eq_true_eq, if_false, Bool.false_eq_true] at htail
    obtain ⟨⟨⟨hsb, hslen⟩, hgb⟩, hglen⟩ := htail
    unfold deserializeProof Proof.serialize
    simp only [if_neg (by simp : ¬ (false = true)), List.append_assoc]
    rw [readBytes_exact (serLE_length 8 _)]
    simp only [Option.bind_eq_bind, Option.some_bind]
    rw [readBytes_exact (show (serI64 p.expirationTime).length = 8 from serLE_length 8 _)]
    simp only [Option.bind_eq_bind, Option.some_bind]
    rw [readPubKey_ser hmklen]
    simp only [Option.bind_eq_bind, Option.some_bind]
    rw [readCompactSize_write hcnt]
    simp only [Option.bind_eq_bind, Option.some_bind]
    rw [readSignedStakes_ser hall]
    simp only [Option.bind_eq_bind, Option.some_bind]
    rw [readScriptBytes_ser hslen]
    simp only [Option.bind_eq_bind, Option.some_bind]
    rw [readBytes_exact hglen]
    simp only [Option.bind_eq_bind, Option.some_bind]
    rw [leVal_serLE_of_lt hseq, decI64_serI64 he1 he2]
  · simp only [eq_self_iff_true, if_true, Bool.and_eq_true, beq_iff_eq] at htail
    obtain ⟨hpd, hgd⟩ := htail
    unfold deserializeProof Proof.serialize
    simp only [if_pos rfl, List.append_nil, List.append_assoc, List.nil_append]
    rw [readBytes_exact (serLE_length 8 _)]
    simp only [Option.bind_eq_bind, Option.some_bind]
    rw [readBytes_exact (show (serI64 p.expirationTime).length = 8 from serLE_length 8 _)]
    simp only [Option.bind_eq_bind, Option.some_bind]
    rw [readPubKey_ser hmklen]
    simp only [Option.bind_eq_bind, Option.some_bind]
    rw [readCompactSize_write hcnt]
    simp only [Option.bind_eq_bind, Option.some_bind]
    rw [readSignedStakes_ser hall]
    simp only [Option.bind_eq_bind, Option.some_bind]
    rw [leVal_serLE_of_lt hseq, decI64_serI64 he1 he2, ← hpd, ← hgd]
    simp

theorem bytesOk_append (a b : List Nat) : bytesOk (a ++ b) = (bytesOk a && bytesOk b) := by
  simp [bytesOk, List.all_append]

theorem bytesOk_cons (b : Nat) (l : List Nat) :
    bytesOk (b :: l) = (decide (b < 256) && bytesOk l) := by
  simp [bytesOk]

theorem writeCompactSize_bytesOk (n : Nat) : bytesOk (writeCompactSize n) = true := by
  unfold writeCompactSize
  split_ifs with h1 h2 h3
  · simp [bytesOk]
    omega
  · rw [bytesOk_cons, serLE_bytesOk]
    simp
  · rw [bytesOk_cons, serLE_bytesOk]
    simp
  · rw [bytesOk_cons, serLE_bytesOk]
    simp

theorem serPubKey_bytesOk {pk : List Nat} (h : bytesOk pk = true) :
    bytesOk (serPubKey pk) = true := by
  rw [serPubKey, bytesOk_append, writeCompactSize_bytesOk, h]
  rfl

theorem serScriptBytes_bytesOk {s : List Nat} (h : bytesOk s = true) :
    bytesOk (serScriptBytes s) = true := by
  rw [serScriptBytes, bytesOk_append, writeCompactSize_bytesOk, h]
  rfl

theorem stake_serialize_bytesOk {s : Stake} (h : s.wf = true) :
    bytesOk s.serialize = true := by
  unfold Stake.wf at h
  simp only [Bool.and_eq_true, decide_eq_true_eq] at h
  obtain ⟨⟨⟨⟨⟨⟨hb, -⟩, -⟩, -⟩, -⟩, -⟩, hpk⟩ := h
  have hpkb : bytesOk s.pubkey = true := by
    unfold pubkeyOk at hpk
    simp only [Bool.and_eq_true] at hpk
    exact hpk.1.1
  unfold Stake.serialize
  simp only [bytesOk_append, hb, serLE_bytesOk, serPubKey_bytesOk hpkb,
    show bytesOk (serI64 s.amount) = true from serLE_bytesOk 8 _]
  rfl

theorem signedStake_serialize_bytesOk {ss : SignedStake} (h : ss.wf = true) :
    bytesOk ss.serialize = true := by
  unfold SignedStake.wf at h
  simp only [Bool.and_eq_true] at h
  rw [SignedStake.serialize, bytesOk_append, stake_serialize_bytesOk h.1.1, h.1.2]
  rfl

theorem stakes_flatten_bytesOk {l : List SignedStake} (h : l.all SignedStake.wf = true) :
    bytesOk ((l.map SignedStake.serialize).flatten) = true := by
  induction l with
  | nil => rfl
  | cons ss rest ih =>
    simp only [List.all_cons, Bool.and_eq_true] at h
    simp only [List.map_cons, List.flatten_cons, bytesOk_append,
      signedStake_serialize_bytesOk h.1, ih h.2]
    rfl

theorem proof_serialize_bytesOk {legacy : Bool} {p : Proof} (h : p.wf legacy = true) :
    bytesOk (p.serialize legacy) = true := by
  unfold Proof.wf at h
  simp only [Bool.and_eq_true, decide_eq_true_eq] at h
  obtain ⟨⟨⟨⟨⟨-, -⟩, hmk⟩, hall⟩, -⟩, htail⟩ := h
  have hmkb : bytesOk p.master = true := by
    unfold pubkeyOk at hmk
    simp only [Bool.and_eq_true] at hmk
    exact hmk.1.1
  unfold Proof.serialize
  simp only [bytesOk_append, serLE_bytesOk, serPubKey_bytesOk hmkb,
    writeCompactSize_bytesOk, stakes_flatten_bytesOk hall,
    show bytesOk (serI64 p.expirationTime) = true from serLE_bytesOk 8 _]
  cases legacy
  · simp only [Bool.and_eq_true, decide_eq_true_eq, if_false, Bool.false_eq_true] at htail
    simp only [if_neg (by simp : ¬ (false = true)), bytesOk_append,
      serScriptBytes_bytesOk htail.1.1.1, htail.1.2]
    rfl
  · simp only [if_pos rfl, Bool.and_eq_true, beq_iff_eq] at htail ⊢
    simp [bytesOk]

theorem proof_serialize_length_pos (legacy : Bool) (p : Proof) :
    0 < (p.serialize legacy).length := by
  unfold Proof.serialize
  simp [List.length_append, serLE_length]

theorem hexCharVal_natToHexChar : ∀ n, n < 16 → hexCharVal (natToHexChar n) = some n := by
  decide

theorem natToHexChar_mem (n : Nat) : hexAlphabet.contains (natToHexChar n) = true := by
  by_cases h : n < 16
  · revert h
    revert n
    decide
  · have hd : natToHexChar n = '0' := by
      unfold natToHexChar
      apply List.getD_eq_default
      have hlen : hexAlphabet.length = 16 := rfl
      omega
    rw [hd]
    decide

theorem natToHexChar_isSome (n : Nat) : (hexCharVal (natToHexChar n)).isSome = true := by
  by_cases h : n < 16
  · rw [hexCharVal_natToHexChar n h]
    rfl
  · have hd : natToHexChar n = '0' := by
      unfold natToHexChar
      apply List.getD_eq_default
      have hlen : hexAlphabet.length = 16 := rfl
      omega
    rw [hd]
    decide

theorem hexPairsToBytes_bytesToHex {l : List Nat} (h : bytesOk l = true) :
    hexPairsToBytes (bytesToHex l) = l := by
  induction l with
  | nil => rfl
  | cons b bs ih =>
    rw [bytesOk_cons] at h
    simp only [Bool.and_eq_true, decide_eq_true_eq] at h
    have h1 := hexCharVal_natToHexChar (b / 16) (by omega)
    have h2 := hexCharVal_natToHexChar (b % 16) (by omega)
    show hexPairsToBytes (byteToHexChars b ++ (List.map byteToHexChars bs).flatten) = b :: bs
    simp only [byteToHexChars, List.cons_append, List.nil_append, hexPairsToBytes, h1, h2,
      Option.getD_some]
    change (b / 16 * 16 + b % 16) :: hexPairsToBytes (bytesToHex bs) = b :: bs
    rw [ih h.2]
    congr 1
    omega

theorem bytesToHex_length (l : List Nat) : (bytesToHex l).length = 2 * l.length := by
  induction l with
  | nil => rfl
  | cons b bs ih =>
    simp only [bytesToHex, List.map_cons, List.flatten_cons, List.length_append,
      byteToHexChars, List.length_cons, List.length_nil] at *
    omega

theorem bytesToHex_isSome (l : List Nat) :
    (bytesToHex l).all (fun c => (hexCharVal c).isSome) = true := by
  induction l with
  | nil => rfl
  | cons b bs ih =>
    simp only [bytesToHex, List.map_cons, List.flatten_cons, List.all_append, byteToHexChars,
      List.all_cons, List.all_nil, Bool.and_eq_true] at *
    exact ⟨⟨natToHexChar_isSome _, natToHexChar_isSome _, True.intro⟩, ih⟩

theorem bytesToHex_alphabet (l : List Nat) :
    (bytesToHex l).all (fun c => hexAlphabet.contains c) = true := by
  induction l with
  | nil => rfl
  | cons b bs ih =>
    simp only [bytesToHex, List.map_cons, List.flatten_cons, List.all_append, byteToHexChars,
      List.all_cons, List.all_nil, Bool.and_eq_true] at *
    exact ⟨⟨natToHexChar_mem _, natToHexChar_mem _, True.intro⟩, ih⟩

theorem isHexString_bytesToHex {l : List Nat} (hne : l ≠ []) :
    isHexString (bytesToHex l) = true := by
  unfold isHexString
  rw [bytesToHex_length]
  simp only [Bool.and_eq_true, decide_eq_true_eq]
  refine ⟨⟨?_, by omega⟩, bytesToHex_isSome l⟩
  have := List.length_pos.mpr hne
  omega

/-- C8: from_hex inverts to_hex on every well-formed proof under a fixed
format; from_hex rejects non-hexadecimal input with NotHex and undecodable
bytes with MalformedEncoding; and to_hex emits even-length lowercase hex. -/
theorem fromHex_toHex_roundTrip :
    (∀ (legacy : Bool) (p : Proof), p.wf legacy = true →
      Proof.fromHex legacy (p.toHex legacy) = .ok p) ∧
    (∀ (legacy : Bool) (s : List Char), isHexString s = false →
      Proof.fromHex legacy s = .error .NotHex) ∧
    (∀ (legacy : Bool) (s : List Char), isHexString s = true →
      deserializeProof legacy (hexPairsToBytes s) = none →
      Proof.fromHex legacy s = .error .MalformedEncoding) ∧
    (∀ (legacy : Bool) (p : Proof), p.wf legacy = true →
      (p.toHex legacy).length % 2 = 0 ∧
        (p.toHex legacy).all (fun c => hexAlphabet.contains c) = true) := by
  refine ⟨?_, ?_, ?_, ?_⟩
  · intro legacy p hwf
    unfold Proof.fromHex Proof.toHex
    have hb : bytesOk (p.serialize legacy) = true := proof_serialize_bytesOk hwf
    have hne : p.serialize legacy ≠ [] := by
      have hp := proof_serialize_length_pos legacy p
      intro habs
      rw [habs] at hp
      simp at hp
    rw [isHexString_bytesToHex hne, hexPairsToBytes_bytesToHex hb]
    have hdes := deserializeProof_ser hwf []
    rw [List.append_nil] at hdes
    rw [hdes]
    simp
  · intro legacy s h
    simp [Proof.fromHex, h]
  · intro legacy s h1 h2
    simp [Proof.fromHex, h1, h2]
  · intro legacy p hwf
    constructor
    · rw [Proof.toHex, bytesToHex_length]
      omega
    · exact bytesToHex_alphabet _

/-- Witness for C8: the concrete legacy proof exProofC survives the hex round
trip. -/
theorem fromHex_toHex_roundTrip_witness :
    Proof.fromHex true (exProofC.toHex true) = .ok exProofC :=
  fromHex_toHex_roundTrip.1 true exProofC (by decide)

/-- A decodable stake whose amount is 2^62, a valid int64. -/
def exBigStake : Stake := ⟨⟨List.replicate 32 4, 0⟩, 4611686018427387904, 100, false, exKeyS⟩

/-- A single-stake proof whose 100-times-amount product overflows int64. -/
def exBigProof : Proof :=
  ⟨9, 0, exKeyM, [], [⟨exBigStake, List.replicate 64 0⟩], List.replicate 64 0⟩

/-- Counterexample to C4 as stated: a decodable single-stake proof with the
valid int64 amount 2^62.  The source computes 100 * 2^62 in int64, which
wraps to 0, so the derived score is 0; the claimed formula over the
mathematical sum gives a nonzero u32. -/
theorem score_formula_counterexample :
    exBigProof.stakes.all SignedStake.wf = true ∧
      exBigProof.score = 0 ∧
      ((Int.tdiv (100 * ((exBigProof.stakes.map (fun s => s.stake.amount)).sum)) 100000000)
        % (2 ^ 32 : Int)).toNat ≠ 0 :=
  ⟨by decide, by decide, by decide⟩

/-- Witness for the amended C4 at the 10-COIN single-stake proof: score 1000,
the spec's own concrete scenario. -/
theorem score_eq_truncating_formula_witness :
    exProofC.score = 1000 :=
  (score_eq_truncating_formula exProofC (by decide) (by decide)).trans (by decide)
